import Mathlib

/-!
Verification development for the jobflow workflow-execution core.

The repository's distributed sources contain only the CI configuration,
packaging metadata and tutorial notebooks; the executable core
(`jobflow.core.reference`, `jobflow.core.job`, `jobflow.core.flow`,
`jobflow.core.store`, `jobflow.managers.local`) is not among them.  The
definitions below are therefore modelled from the specification of that
core (data model §3, component design §4, manager algorithm §4.5), with
behaviour that the tutorial notebooks pin down (the shape of `Response`,
the execution logs of `run_locally`, the disconnected-graph warning)
kept consistent with those notebooks.
-/

set_option maxHeartbeats 1000000

namespace Jobflow

/-- Modelled from the spec: a selector is either an attribute name or a
subscript index (integers, negative allowed, index ordered sequences). -/
inductive Selector where
  | attr (name : String)
  | item (key : Int)
deriving Repr, DecidableEq

/-- Modelled from the spec: a Reference is `(uuid, iteration, path)` where
`path` is an ordered sequence of selectors.  The source class
`jobflow.core.reference.OutputReference` is not in the distributed files. -/
structure Reference where
  uuid : Nat
  index : Nat
  path : List Selector
deriving Repr, DecidableEq

/-- Modelled from the spec: the JSON-like value domain of job arguments and
outputs.  References may be embedded at any depth. -/
inductive Value where
  | null
  | int (n : Int)
  | str (s : String)
  | list (xs : List Value)
  | dict (fields : List (String × Value))
  | ref (r : Reference)
deriving Repr

/-- Modelled from the spec: an output document `{uuid, index, output, …}`;
the store's primary index is `(uuid, index)`. -/
structure OutputDoc where
  uuid : Nat
  index : Nat
  output : Value
deriving Repr

/-- Modelled from the spec: the `outputs` collection of the JobStore, the
only collection the claims touch.  The class `jobflow.core.store.JobStore`
is not in the distributed files. -/
abbrev JobStore := List OutputDoc

/-- Modelled from the spec: the `on_missing_references` policy
{fail, pass_through, none}. -/
inductive OnMissing where
  | fail
  | passThrough
  | none
deriving Repr, DecidableEq

/-- Modelled from the spec: the error taxonomy entry raised when the
referenced `(uuid, index)` is absent from the store at resolve time. -/
inductive ResolveError where
  | referenceResolutionFailure (uuid : Nat) (index : Nat)
deriving Repr, DecidableEq

/-- Modelled from the spec: `attr(name)` returns a new Reference with the
selector appended to `path`; no lookup happens at construction time. -/
def Reference.attr (r : Reference) (name : String) : Reference :=
  { r with path := r.path ++ [Selector.attr name] }

/-- Modelled from the spec: `item(key)` returns a new Reference with the
subscript selector appended to `path`. -/
def Reference.item (r : Reference) (key : Int) : Reference :=
  { r with path := r.path ++ [Selector.item key] }

/-- Modelled from the spec: keep whichever of a candidate document and the
best-so-far has the greater index for the queried uuid. -/
def betterDoc (u : Nat) (d : OutputDoc) : Option OutputDoc → Option OutputDoc
  | Option.none => if d.uuid = u then some d else Option.none
  | some b => if d.uuid = u ∧ b.index < d.index then some d else some b

/-- Modelled from the spec: the document with the greatest `index` for a
uuid — what a query for "the output of uuid U" returns. -/
def latestDoc : JobStore → Nat → Option OutputDoc
  | [], _ => Option.none
  | d :: rest, u => betterDoc u d (latestDoc rest u)

/-- Modelled from the spec: field lookup inside a stored mapping, used by
attribute selectors (mapping key lookup). -/
def lookupField : List (String × Value) → String → Option Value
  | [], _ => Option.none
  | (n, v) :: rest, key => if n = key then some v else lookupField rest key

/-- Modelled from the spec: subscript lookup on an ordered sequence;
negative indices count from the end. -/
def listGet (xs : List Value) (k : Int) : Option Value :=
  if 0 ≤ k then xs.get? k.toNat
  else if k.natAbs ≤ xs.length then xs.get? (xs.length - k.natAbs) else Option.none

/-- Modelled from the spec: selector semantics — attribute selectors
dispatch to mapping key lookup, index selectors index ordered sequences. -/
def applySelector (v : Value) : Selector → Option Value
  | Selector.attr n =>
    match v with
    | Value.dict fs => lookupField fs n
    | _ => Option.none
  | Selector.item k =>
    match v with
    | Value.list xs => listGet xs k
    | _ => Option.none

/-- Modelled from the spec: chained selectors compose left-to-right. -/
def applyPath (v : Value) : List Selector → Option Value
  | [] => some v
  | s :: rest =>
    match applySelector v s with
    | some w => applyPath w rest
    | Option.none => Option.none

/-- Modelled from the spec: `resolve(store, on_missing)` looks up the latest
output document for `(uuid, *)`, applies each selector in order and returns
the resulting value; on lookup failure the behaviour is governed by
`on_missing` (`fail` raises, `pass_through` returns the Reference
unchanged, `none` returns the null sentinel). -/
def Reference.resolve (r : Reference) (store : JobStore) (om : OnMissing) :
    Except ResolveError Value :=
  match latestDoc store r.uuid with
  | some d =>
    match applyPath d.output r.path with
    | some v => Except.ok v
    | Option.none => Except.error (ResolveError.referenceResolutionFailure r.uuid r.index)
  | Option.none =>
    match om with
    | OnMissing.fail => Except.error (ResolveError.referenceResolutionFailure r.uuid r.index)
    | OnMissing.passThrough => Except.ok (Value.ref r)
    | OnMissing.none => Except.ok Value.null

/-- Modelled from the spec: `get_output(uuid, index=max, on_missing=fail)`
resolves the latest output — the document with greatest `index` for the
uuid; absence is governed by the `on_missing` policy. -/
def JobStore.get_output (store : JobStore) (u : Nat) (om : OnMissing) :
    Except ResolveError Value :=
  match latestDoc store u with
  | some d => Except.ok d.output
  | Option.none =>
    match om with
    | OnMissing.fail => Except.error (ResolveError.referenceResolutionFailure u 0)
    | OnMissing.passThrough => Except.ok (Value.ref ⟨u, 0, []⟩)
    | OnMissing.none => Except.ok Value.null

/-- Modelled from the spec: `order ∈ {auto, linear}` controls whether
execution order is determined by dependencies or by declaration order. -/
inductive JobOrder where
  | auto
  | linear
deriving Repr, DecidableEq

mutual
/-- Modelled from the spec: the Response directive returned by a running
job — `output`, `replace`, `detour`, `addition`, `stored_data`,
`stop_children`, `stop_jobflow` (shape confirmed by the tutorial
notebooks' printed `Response(...)` values). -/
inductive Response where
  | mk (output : Value) (replace : Option Work) (detour : Option Work)
       (addition : Option Work) (storedData : Option Value)
       (stopChildren : Bool) (stopJobflow : Bool)

/-- Modelled from the spec: what a job function may return — a bare value
(wrapped as `Response(output=value)` on normalisation) or a Response. -/
inductive JobResult where
  | value (v : Value)
  | resp (r : Response)

/-- Modelled from the spec: a Job is a deferred call with identity
`(uuid, index)`, an `on_missing_references` configuration, a function and
captured arguments that may embed References at any depth. -/
inductive Job where
  | mk (uuid : Nat) (index : Nat) (onMissing : OnMissing)
       (func : List Value → JobResult) (args : List Value)

/-- Modelled from the spec: the payload of a dynamic directive — a Job or
a Flow. -/
inductive Work where
  | job (j : Job)
  | flow (f : Flow)

/-- Modelled from the spec: a Flow `(uuid, jobs, output, order)`; `output`
is an optional expression of References structuring member outputs. -/
inductive Flow where
  | mk (uuid : Nat) (jobs : List Job) (output : Option Value) (ord : JobOrder)
end

def Response.output : Response → Value
  | Response.mk o _ _ _ _ _ _ => o

def Response.replace : Response → Option Work
  | Response.mk _ r _ _ _ _ _ => r

def Response.detour : Response → Option Work
  | Response.mk _ _ d _ _ _ _ => d

def Response.addition : Response → Option Work
  | Response.mk _ _ _ a _ _ _ => a

def Response.storedData : Response → Option Value
  | Response.mk _ _ _ _ s _ _ => s

def Response.stopChildren : Response → Bool
  | Response.mk _ _ _ _ _ c _ => c

def Response.stopJobflow : Response → Bool
  | Response.mk _ _ _ _ _ _ s => s

def Job.uuid : Job → Nat
  | Job.mk u _ _ _ _ => u

def Job.index : Job → Nat
  | Job.mk _ i _ _ _ => i

def Job.onMissing : Job → OnMissing
  | Job.mk _ _ om _ _ => om

def Job.func : Job → List Value → JobResult
  | Job.mk _ _ _ f _ => f

def Job.args : Job → List Value
  | Job.mk _ _ _ _ a => a

def Flow.uuid : Flow → Nat
  | Flow.mk u _ _ _ => u

def Flow.jobs : Flow → List Job
  | Flow.mk _ js _ _ => js

def Flow.output : Flow → Option Value
  | Flow.mk _ _ o _ => o

def Flow.ord : Flow → JobOrder
  | Flow.mk _ _ _ o => o

/-- Modelled from the spec: every Job has exactly one canonical `output`
Reference `(uuid, iteration, [])`. -/
def Job.output (j : Job) : Reference := ⟨j.uuid, j.index, []⟩

mutual
/-- Modelled from the spec: the uuids of all References embedded anywhere
inside a value (used for the dependency graph: an edge `A → B` exists iff
some Reference inside B's arguments has uuid A). -/
def refUuidsV : Value → List Nat
  | Value.null => []
  | Value.int _ => []
  | Value.str _ => []
  | Value.ref r => [r.uuid]
  | Value.list xs => refUuidsL xs
  | Value.dict fs => refUuidsD fs

def refUuidsL : List Value → List Nat
  | [] => []
  | v :: vs => refUuidsV v ++ refUuidsL vs

def refUuidsD : List (String × Value) → List Nat
  | [] => []
  | (_, v) :: fs => refUuidsV v ++ refUuidsD fs
end

mutual
/-- Modelled from the spec: input resolution recursively walks a nested
structure, replacing each Reference with its resolved value per the
`on_missing` policy. -/
def resolveV (store : JobStore) (om : OnMissing) : Value → Except ResolveError Value
  | Value.null => Except.ok Value.null
  | Value.int n => Except.ok (Value.int n)
  | Value.str s => Except.ok (Value.str s)
  | Value.ref r => r.resolve store om
  | Value.list xs =>
    match resolveL store om xs with
    | Except.ok ws => Except.ok (Value.list ws)
    | Except.error e => Except.error e
  | Value.dict fs =>
    match resolveD store om fs with
    | Except.ok gs => Except.ok (Value.dict gs)
    | Except.error e => Except.error e

def resolveL (store : JobStore) (om : OnMissing) :
    List Value → Except ResolveError (List Value)
  | [] => Except.ok []
  | v :: vs =>
    match resolveV store om v with
    | Except.ok w =>
      match resolveL store om vs with
      | Except.ok ws => Except.ok (w :: ws)
      | Except.error e => Except.error e
    | Except.error e => Except.error e

def resolveD (store : JobStore) (om : OnMissing) :
    List (String × Value) → Except ResolveError (List (String × Value))
  | [] => Except.ok []
  | (n, v) :: fs =>
    match resolveV store om v with
    | Except.ok w =>
      match resolveD store om fs with
      | Except.ok gs => Except.ok ((n, w) :: gs)
      | Except.error e => Except.error e
    | Except.error e => Except.error e
end

/-- Modelled from the spec: bare return values are wrapped as
`Response(output=value)`; a Response is passed through unchanged. -/
def normalizeResult : JobResult → Response
  | JobResult.value v => Response.mk v Option.none Option.none Option.none Option.none false false
  | JobResult.resp r => r

/-- Modelled from the spec: `Job.run(store)` — resolve the arguments per
the job's `on_missing_references` policy, call the function, normalise the
return value to a Response, write `{uuid, index, output}` to the store's
main collection and return the Response.  `Option.none` signals a failure
during input resolution (distinguished from execution). -/
def execJob (store : JobStore) (j : Job) : Option (JobStore × Response) :=
  match resolveL store j.onMissing j.args with
  | Except.error _ => Option.none
  | Except.ok vs =>
    let r := normalizeResult (j.func vs)
    some (store ++ [⟨j.uuid, j.index, r.output⟩], r)

/-- Modelled from the spec: a job is ready when no other not-yet-emitted
job carries a uuid referenced by its arguments (References to uuids
outside the Flow never block). -/
def readyJob (others : List Job) (j : Job) : Bool :=
  (refUuidsL j.args).all (fun u => others.all (fun k => k.uuid ≠ u))

/-- Modelled from the spec: scan for the first ready job (declaration
order ties), returning it with the list of the remaining jobs. -/
def extractReady : List Job → List Job → Option (Job × List Job)
  | _, [] => Option.none
  | pre, j :: rest =>
    if readyJob (pre.reverse ++ rest) j then some (j, pre.reverse ++ rest)
    else extractReady (j :: pre) rest

/-- Modelled from the spec: stable topological ordering — repeatedly emit
the first job (in declaration order) whose dependencies have all been
emitted; fails (cycle) when no job is ready. -/
def kahnGo : Nat → List Job → List Job → Option (List Job)
  | 0, remaining, acc => if remaining.isEmpty then some acc.reverse else Option.none
  | n + 1, remaining, acc =>
    match remaining with
    | [] => some acc.reverse
    | _ :: _ =>
      match extractReady [] remaining with
      | Option.none => Option.none
      | some (j, rest) => kahnGo n rest (j :: acc)

/-- Modelled from the spec: the stable topological sort used for
`order=auto`. -/
def kahnSort (jobs : List Job) : Option (List Job) :=
  kahnGo jobs.length jobs []

/-- Modelled from the spec: with `order=linear` execution follows
declaration order; a Reference to a later job's uuid would make the
chained graph cyclic, which is rejected. -/
def linearOk : List Job → Bool
  | [] => true
  | j :: rest =>
    (refUuidsL j.args).all (fun u => rest.all (fun k => k.uuid ≠ u)) && linearOk rest

/-- Modelled from the spec: iteration over a Flow yields Jobs in a stable
topological order (`auto`) or declaration order (`linear`). -/
def scheduleOfFlow (f : Flow) : Option (List Job) :=
  match f.ord with
  | JobOrder.auto => kahnSort f.jobs
  | JobOrder.linear => if linearOk f.jobs then some f.jobs else Option.none

/-- Modelled from the spec: a job with no incident dependency edge at all
(nothing it references is in the flow, nothing in the flow references it). -/
def noIncidentEdges (jobs : List Job) (j : Job) : Bool :=
  (refUuidsL j.args).all (fun u => jobs.all (fun k => k.uuid ≠ u)) &&
  jobs.all (fun k => ¬ j.uuid ∈ refUuidsL k.args)

/-- Modelled from the spec: when a Flow contains jobs with no
inter-dependencies, implementations surface a warning about the
disconnected graph (the tutorial shows `jobflow.utils.graph` warning
"Some jobs are not connected, their ordering may be random"). -/
def flowWarnings (f : Flow) : List String :=
  if 2 ≤ f.jobs.length ∧ f.jobs.any (noIncidentEdges f.jobs) then
    ["Some jobs are not connected, their ordering may be random"]
  else []

/-- Modelled from the spec: the function of the terminal job materialised
for an output-bearing replacement Flow — it simply stores its (resolved)
input. -/
def storeInputsFn : List Value → JobResult :=
  fun vs => JobResult.value (vs.headD Value.null)

/-- Modelled from the spec: the terminal job carrying the replaced job's
uuid with `index+1`, whose argument is the replacement Flow's output
expression. -/
def storeInputsJob (u : Nat) (idx : Nat) (o : Value) : Job :=
  Job.mk u idx OnMissing.fail storeInputsFn [o]

/-- Modelled from the spec: materialising a `replace` directive — the
current job's uuid is reused for the terminal node of the replacement
with its index incremented by 1: a replacement Job is renamed in place;
an output-bearing replacement Flow gets a terminal store-inputs job (a
Flow without output keeps its jobs unchanged, as in the tutorial's
replace example).  Fails on a cyclic replacement Flow. -/
def prepareReplace (j : Job) : Work → Option (List Job)
  | Work.job k => some [Job.mk j.uuid (j.index + 1) k.onMissing k.func k.args]
  | Work.flow f =>
    match scheduleOfFlow f with
    | Option.none => Option.none
    | some s =>
      match f.output with
      | some o => some (s ++ [storeInputsJob j.uuid (j.index + 1) o])
      | Option.none => some s

/-- Modelled from the spec: the linearised jobs of a detour or addition
payload (a Job on its own, or a Flow in its iteration order). -/
def workSchedule : Work → Option (List Job)
  | Work.job k => some [k]
  | Work.flow f => scheduleOfFlow f

/-- Modelled from the spec: a detour is inserted before any job that was
dependent on the current job; with no dependent left it lands at the end
of the schedule (where an addition also lands — the tutorial notes both
then behave identically). -/
def insertBeforeDependents (u : Nat) (new : List Job) : List Job → List Job
  | [] => new
  | k :: rest =>
    if u ∈ refUuidsL k.args then new ++ k :: rest
    else k :: insertBeforeDependents u new rest

/-- Modelled from the spec: interpret a `replace` directive — the
materialised replacement is prepended to the remaining schedule. -/
def applyReplace (j : Job) (r : Response) (rest : List Job) : Option (List Job) :=
  match r.replace with
  | some w =>
    match prepareReplace j w with
    | some njs => some (njs ++ rest)
    | Option.none => Option.none
  | Option.none => some rest

/-- Modelled from the spec: interpret a `detour` directive — the detour
jobs are inserted before the first dependent of the current job. -/
def applyDetour (j : Job) (r : Response) (s1 : List Job) : Option (List Job) :=
  match r.detour with
  | some w =>
    match workSchedule w with
    | some njs => some (insertBeforeDependents j.uuid njs s1)
    | Option.none => Option.none
  | Option.none => some s1

/-- Modelled from the spec: interpret an `addition` directive — the new
jobs are appended to the schedule with no rewiring. -/
def applyAddition (r : Response) (s2 : List Job) : Option (List Job) :=
  match r.addition with
  | some w =>
    match workSchedule w with
    | some njs => some (s2 ++ njs)
    | Option.none => Option.none
  | Option.none => some s2

/-- Modelled from the spec: interpret the dynamic directives of a
Response against the remaining schedule, replace before detour before
addition; a structurally invalid (cyclic) payload is fatal. -/
def applyDirectives (j : Job) (r : Response) (rest : List Job) : Option (List Job) :=
  match applyReplace j r rest with
  | some s1 =>
    match applyDetour j r s1 with
    | some s2 => applyAddition r s2
    | Option.none => Option.none
  | Option.none => Option.none

/-- The `(uuid, index)` pairs present in a store. -/
def storePairs (store : JobStore) : List (Nat × Nat) :=
  store.map (fun d => (d.uuid, d.index))

/-- Observable events of a run: the start of a job's input resolution
(with a snapshot of the store's `(uuid, index)` pairs at that moment),
the invocation of its function, and the write of its output document. -/
inductive Event where
  | resolveStart (uuid : Nat) (index : Nat) (snap : List (Nat × Nat))
  | invoked (uuid : Nat) (index : Nat)
  | wrote (uuid : Nat) (index : Nat)
deriving Repr, DecidableEq

/-- Modelled from the spec: the Manager's workflow state — the remaining
schedule, the store, the completed `(uuid, index)` pairs and the uuids
whose children are stopped. -/
structure Core where
  schedule : List Job
  store : JobStore
  done : List (Nat × Nat)
  stopUuids : List Nat
  stopped : Bool

/-- Modelled from the spec: the Manager's main loop (fuel-bounded).  Each
iteration takes the next scheduled job; a completed `(uuid, index)` is
never run again; a job whose dependencies include a stopped uuid is
skipped (and propagates); otherwise its inputs are resolved, the function
is invoked, the output document is written, and the Response's
directives reshape the remaining schedule.  Returns the final state, the
recorded `(uuid, index) → Response` entries and the event log. -/
def runLoop : Nat → Core → Core × List ((Nat × Nat) × Response) × List Event
  | 0, s => (s, [], [])
  | fuel + 1, s =>
    if s.stopped then (s, [], []) else
    match s.schedule with
    | [] => (s, [], [])
    | j :: rest =>
      if (j.uuid, j.index) ∈ s.done then
        runLoop fuel { s with schedule := rest }
      else if (refUuidsL j.args).any (fun u => u ∈ s.stopUuids) then
        runLoop fuel { s with schedule := rest, stopUuids := j.uuid :: s.stopUuids }
      else
        match execJob s.store j with
        | Option.none =>
          let out := runLoop fuel { s with schedule := rest, stopUuids := j.uuid :: s.stopUuids }
          (out.1, out.2.1, Event.resolveStart j.uuid j.index (storePairs s.store) :: out.2.2)
        | some (store', r) =>
          match applyDirectives j r rest with
          | Option.none =>
            ({ s with schedule := [], store := store',
                      done := (j.uuid, j.index) :: s.done, stopped := true },
             [((j.uuid, j.index), r)],
             [Event.resolveStart j.uuid j.index (storePairs s.store),
              Event.invoked j.uuid j.index, Event.wrote j.uuid j.index])
          | some sched' =>
            let s' : Core :=
              { schedule := sched', store := store',
                done := (j.uuid, j.index) :: s.done,
                stopUuids := if r.stopChildren then j.uuid :: s.stopUuids else s.stopUuids,
                stopped := r.stopJobflow }
            let out := runLoop fuel s'
            (out.1, ((j.uuid, j.index), r) :: out.2.1,
             Event.resolveStart j.uuid j.index (storePairs s.store) ::
               Event.invoked j.uuid j.index :: Event.wrote j.uuid j.index :: out.2.2)

/-- The initial manager state for a schedule over a store. -/
def initCore (sched : List Job) (store : JobStore) : Core :=
  ⟨sched, store, [], [], false⟩

/-- Modelled from the spec: `run_locally(flow, store)` — linearise the
Flow and run the manager loop. -/
def runFlow (fuel : Nat) (f : Flow) (store : JobStore) :
    Option (Core × List ((Nat × Nat) × Response) × List Event) :=
  match scheduleOfFlow f with
  | some sched => some (runLoop fuel (initCore sched store))
  | Option.none => Option.none

/-- The `(uuid, index)` pairs whose function was invoked, in order. -/
def invokedPairs (events : List Event) : List (Nat × Nat) :=
  events.filterMap (fun e =>
    match e with
    | Event.invoked u i => some (u, i)
    | _ => Option.none)

/-- Modelled from the spec: construction-time world — a fresh-uuid
counter and a counter of calls through wrapped job functions.  The `@job`
decorator turns a call into a Job without calling through, so only the
execution engine ever increments `wrappedCalls`. -/
structure BuildState where
  nextUuid : Nat
  wrappedCalls : Nat
deriving Repr, DecidableEq

/-- Modelled from the spec: calling a job-decorated function returns a
Job object with a fresh uuid and iteration 1; the wrapped function is not
invoked. -/
def jobCall (f : List Value → JobResult) (args : List Value) (s : BuildState) :
    Job × BuildState :=
  (Job.mk s.nextUuid 1 OnMissing.fail f args, ⟨s.nextUuid + 1, s.wrappedCalls⟩)

/-- Modelled from the spec: constructing a sequence of jobs (the
construction phase of a workflow), threading the build state. -/
def buildJobs : List ((List Value → JobResult) × List Value) → BuildState →
    List Job × BuildState
  | [], s => ([], s)
  | (f, args) :: rest, s =>
    let p := jobCall f args s
    let q := buildJobs rest p.2
    (p.1 :: q.1, q.2)

/-! Properties used to state the claims. -/

/-- No job after `b` in the list is a dependency of `b` — the shape of a
topologically consistent schedule. -/
def SortedTail (l : List Job) : Prop :=
  ∀ t₁ b t₂, l = t₁ ++ b :: t₂ → ∀ a ∈ t₂, ¬ a.uuid ∈ refUuidsL b.args

/-- The jobs carried verbatim by a directive payload. -/
def workJobsRaw : Work → List Job
  | Work.job k => [k]
  | Work.flow f => f.jobs

/-- The jobs carried verbatim by an optional directive payload. -/
def optWorkJobs : Option Work → List Job
  | Option.none => []
  | some w => workJobsRaw w

/-- All jobs carried verbatim by the dynamic directives of a Response. -/
def responseWorkJobs (r : Response) : List Job :=
  optWorkJobs r.replace ++ optWorkJobs r.detour ++ optWorkJobs r.addition

/-- Tracking state for one dependency edge `A → B`: A's document is
written, or A is stopped, or A still precedes B in the schedule. -/
def GoodAB (A B : Job) (s : Core) : Prop :=
  (A.uuid, A.index) ∈ storePairs s.store ∨ A.uuid ∈ s.stopUuids ∨
    List.Sublist [A, B] s.schedule

/-- Every completed `(uuid, index)` has a document in the store. -/
def DoneSub (s : Core) : Prop :=
  ∀ p ∈ s.done, p ∈ storePairs s.store

/-- Every scheduled job carrying B's uuid is B itself or a
replacement-descendant with a strictly larger index. -/
def UuidB (B : Job) (s : Core) : Prop :=
  ∀ k ∈ s.schedule, k.uuid = B.uuid → k = B ∨ B.index < k.index

/-- How many scheduled jobs carry B's `(uuid, index)`. -/
def pairCountB (B : Job) (l : List Job) : Nat :=
  l.countP (fun k => k.uuid == B.uuid && k.index == B.index)

/-- B's identity appears at most once in the schedule. -/
def UniqueB (B : Job) (s : Core) : Prop :=
  pairCountB B s.schedule ≤ 1

/-! Concrete example jobs, used by the witnesses. -/

/-- Example job function: add two integer arguments. -/
def exAddFn : List Value → JobResult := fun vs =>
  JobResult.value
    (match vs with
     | [Value.int a, Value.int b] => Value.int (a + b)
     | _ => Value.null)

/-- Example job function: the constant 5. -/
def exConstFn : List Value → JobResult := fun _ => JobResult.value (Value.int 5)

/-- Example job: `add(1, 2)` under uuid 10. -/
def exJob1 : Job := Job.mk 10 1 OnMissing.fail exAddFn [Value.int 1, Value.int 2]

/-- Example job: `add(ref 10, 3)` under uuid 11, depending on `exJob1`. -/
def exJob2 : Job :=
  Job.mk 11 1 OnMissing.fail exAddFn [Value.ref ⟨10, 1, []⟩, Value.int 3]

/-- Example job without dependencies under uuid 12. -/
def exJob3 : Job := Job.mk 12 1 OnMissing.fail exConstFn []

/-- Example two-job flow with one dependency edge, declared out of order. -/
def exFlow : Flow := Flow.mk 100 [exJob2, exJob1] Option.none JobOrder.auto

/-- Example two-job flow with no dependency edges. -/
def exFlowDisc : Flow := Flow.mk 101 [exJob1, exJob3] Option.none JobOrder.auto

/-- Example store: uuid 3 at indices 1 and 2. -/
def exStore : JobStore := [⟨3, 1, Value.int 7⟩, ⟨3, 2, Value.int 9⟩]

/-- Example store: uuid 5 at index 1. -/
def exStore5 : JobStore := [⟨5, 1, Value.int 7⟩]

/-! Theorems. -/

theorem betterDoc_eq_some {u : Nat} {d : OutputDoc} {o : Option OutputDoc}
    {m : OutputDoc} (h : betterDoc u d o = some m) :
    (m = d ∧ d.uuid = u) ∨ o = some m := by
  cases o with
  | none =>
    rw [betterDoc] at h
    by_cases hd : d.uuid = u
    · rw [if_pos hd] at h
      cases h
      exact Or.inl ⟨rfl, hd⟩
    · rw [if_neg hd] at h
      cases h
  | some b =>
    rw [betterDoc] at h
    by_cases hb : d.uuid = u ∧ b.index < d.index
    · rw [if_pos hb] at h
      cases h
      exact Or.inl ⟨rfl, hb.1⟩
    · rw [if_neg hb] at h
      cases h
      exact Or.inr rfl

theorem latestDoc_mem {store : JobStore} {u : Nat} {m : OutputDoc}
    (h : latestDoc store u = some m) : m ∈ store ∧ m.uuid = u := by
  induction store with
  | nil => simp [latestDoc] at h
  | cons d rest ih =>
    rw [latestDoc] at h
    rcases betterDoc_eq_some h with ⟨rfl, hu⟩ | hrest
    · exact ⟨List.mem_cons_self _ _, hu⟩
    · have := ih hrest
      exact ⟨List.mem_cons_of_mem _ this.1, this.2⟩

theorem latestDoc_none {store : JobStore} {u : Nat}
    (h : latestDoc store u = Option.none) : ∀ d ∈ store, d.uuid ≠ u := by
  induction store with
  | nil => intro d hd; simp at hd
  | cons d rest ih =>
    rw [latestDoc] at h
    cases hrest : latestDoc rest u with
    | none =>
      rw [hrest, betterDoc] at h
      by_cases hd : d.uuid = u
      · rw [if_pos hd] at h; cases h
      · intro x hx
        rcases List.mem_cons.mp hx with rfl | hx
        · exact hd
        · exact ih hrest x hx
    | some b =>
      rw [hrest, betterDoc] at h
      by_cases hb : d.uuid = u ∧ b.index < d.index
      · rw [if_pos hb] at h; cases h
      · rw [if_neg hb] at h; cases h

theorem betterDoc_max {u : Nat} {d : OutputDoc} {o : Option OutputDoc}
    {m : OutputDoc} (h : betterDoc u d o = some m) :
    (d.uuid = u → d.index ≤ m.index) ∧ ∀ b, o = some b → b.index ≤ m.index := by
  cases o with
  | none =>
    rw [betterDoc] at h
    by_cases hd : d.uuid = u
    · rw [if_pos hd] at h
      injection h with h'
      constructor
      · intro _; rw [← h']
      · intro b hb; cases hb
    · rw [if_neg hd] at h
      cases h
  | some b =>
    rw [betterDoc] at h
    by_cases hb : d.uuid = u ∧ b.index < d.index
    · rw [if_pos hb] at h
      injection h with h'
      constructor
      · intro _; rw [← h']
      · intro b' hb'
        injection hb' with hb''
        rw [← hb'', ← h']
        exact le_of_lt hb.2
    · rw [if_neg hb] at h
      injection h with h'
      constructor
      · intro hdu
        rcases Decidable.not_and_iff_or_not.mp hb with hc | hc
        · exact absurd hdu hc
        · rw [← h']; exact le_of_not_lt hc
      · intro b' hb'
        injection hb' with hb''
        rw [← hb'', ← h']

theorem latestDoc_max {store : JobStore} {u : Nat} :
    ∀ {m : OutputDoc}, latestDoc store u = some m →
      ∀ d ∈ store, d.uuid = u → d.index ≤ m.index := by
  induction store with
  | nil => intro m h d hd; simp at hd
  | cons d rest ih =>
    intro m h x hx hxu
    rw [latestDoc] at h
    rcases List.mem_cons.mp hx with rfl | hx
    · exact (betterDoc_max h).1 hxu
    · cases hrest : latestDoc rest u with
      | none => exact absurd hxu (latestDoc_none hrest x hx)
      | some b =>
        exact le_trans (ih hrest x hx hxu) ((betterDoc_max h).2 b hrest)

theorem latestDoc_isSome {store : JobStore} {u : Nat} {d : OutputDoc}
    (hd : d ∈ store) (hu : d.uuid = u) : ∃ m, latestDoc store u = some m := by
  induction store with
  | nil => simp at hd
  | cons x rest ih =>
    rw [latestDoc]
    rcases List.mem_cons.mp hd with rfl | hmem
    · cases hrest : latestDoc rest u with
      | none =>
        rw [betterDoc, if_pos hu]
        exact ⟨d, rfl⟩
      | some b =>
        rw [betterDoc]
        by_cases hb : d.uuid = u ∧ b.index < d.index
        · rw [if_pos hb]; exact ⟨d, rfl⟩
        · rw [if_neg hb]; exact ⟨b, rfl⟩
    · rcases ih hmem with ⟨b, hb⟩
      rw [hb, betterDoc]
      by_cases hx : x.uuid = u ∧ b.index < x.index
      · rw [if_pos hx]; exact ⟨x, rfl⟩
      · rw [if_neg hx]; exact ⟨b, rfl⟩

/-- C6: for every uuid with at least one output document in the store, the
default lookup `JobStore.get_output` returns the output of the document
with the largest index for that uuid; documents of superseded lower
indices remain in the store (also across any further `execJob` write) but
are not the ones returned. -/
theorem claim_c6_latest_output (store : JobStore) (u : Nat) (om : OnMissing)
    (d₀ : OutputDoc) (h₀ : d₀ ∈ store) (hu : d₀.uuid = u) :
    ∃ m, latestDoc store u = some m ∧ m ∈ store ∧ m.uuid = u ∧
      (∀ d ∈ store, d.uuid = u → d.index ≤ m.index) ∧
      JobStore.get_output store u om = Except.ok m.output ∧
      (∀ d ∈ store, d.uuid = u → d.index < m.index → latestDoc store u ≠ some d) ∧
      (∀ (j : Job) (st' : JobStore) (r : Response),
        execJob store j = some (st', r) → d₀ ∈ st') := by
  rcases latestDoc_isSome h₀ hu with ⟨m, hm⟩
  rcases latestDoc_mem hm with ⟨hmem, hmu⟩
  refine ⟨m, hm, hmem, hmu, latestDoc_max hm, ?_, ?_, ?_⟩
  · unfold JobStore.get_output
    rw [hm]
  · intro d _ _ hlt hcontra
    rw [hm] at hcontra
    cases hcontra
    exact lt_irrefl _ hlt
  · intro j st' r hexec
    cases hres : resolveL store j.onMissing j.args with
    | error e =>
      simp only [execJob, hres] at hexec
      exact Option.noConfusion hexec
    | ok vs =>
      simp only [execJob, hres, Option.some.injEq, Prod.mk.injEq] at hexec
      rw [← hexec.1]
      exact List.mem_append_left _ h₀

/-- C6 witness: a store holding indices 1 and 2 for uuid 3. -/
theorem claim_c6_witness :
    ∃ m, latestDoc exStore 3 = some m ∧
      m ∈ exStore ∧ m.uuid = 3 ∧
      (∀ d ∈ exStore, d.uuid = 3 → d.index ≤ m.index) ∧
      JobStore.get_output exStore 3 OnMissing.fail = Except.ok m.output ∧
      (∀ d ∈ exStore, d.uuid = 3 → d.index < m.index →
        latestDoc exStore 3 ≠ some d) ∧
      (∀ (j : Job) (st' : JobStore) (r : Response),
        execJob exStore j = some (st', r) →
        (⟨3, 1, Value.int 7⟩ : OutputDoc) ∈ st') :=
  claim_c6_latest_output exStore 3 OnMissing.fail ⟨3, 1, Value.int 7⟩
    (List.mem_cons_self _ _) rfl

/-- C5: applying an attribute or index selector produces a new Reference
whose path is the old path with the selector appended, leaving uuid and
iteration (and the original Reference) unchanged; the constructors take
no store, so no lookup can occur. -/
theorem claim_c5_reference_purity (r : Reference) (x : String) (k : Int) :
    (r.attr x).path = r.path ++ [Selector.attr x] ∧
    (r.attr x).uuid = r.uuid ∧ (r.attr x).index = r.index ∧
    (r.item k).path = r.path ++ [Selector.item k] ∧
    (r.item k).uuid = r.uuid ∧ (r.item k).index = r.index :=
  ⟨rfl, rfl, rfl, rfl, rfl, rfl⟩

/-- C7: when the referenced uuid has no document in the store, `resolve`
follows the `on_missing` policy — `fail` raises a reference-resolution
failure, `pass_through` returns the Reference itself unchanged, `none`
returns the null sentinel; when a document is present (and the selector
path applies), the resolved value is returned under every policy. -/
theorem claim_c7_on_missing (r : Reference) (store : JobStore) :
    (latestDoc store r.uuid = Option.none →
      r.resolve store OnMissing.fail =
        Except.error (ResolveError.referenceResolutionFailure r.uuid r.index) ∧
      r.resolve store OnMissing.passThrough = Except.ok (Value.ref r) ∧
      r.resolve store OnMissing.none = Except.ok Value.null) ∧
    (∀ d v, latestDoc store r.uuid = some d → applyPath d.output r.path = some v →
      ∀ om, r.resolve store om = Except.ok v) := by
  constructor
  · intro h
    unfold Reference.resolve
    rw [h]
    exact ⟨rfl, rfl, rfl⟩
  · intro d v hd hv om
    simp only [Reference.resolve, hd, hv]

/-- C7 witness: missing uuid 5 on the empty store, and present uuid 5. -/
theorem claim_c7_witness :
    Reference.resolve ⟨5, 1, []⟩ [] OnMissing.passThrough =
      Except.ok (Value.ref ⟨5, 1, []⟩) ∧
    Reference.resolve ⟨5, 1, []⟩ [] OnMissing.none = Except.ok Value.null ∧
    Reference.resolve ⟨5, 1, []⟩ [] OnMissing.fail =
      Except.error (ResolveError.referenceResolutionFailure 5 1) ∧
    Reference.resolve ⟨5, 1, []⟩ exStore5 OnMissing.none =
      Except.ok (Value.int 7) :=
  ⟨((claim_c7_on_missing ⟨5, 1, []⟩ []).1 rfl).2.1,
   ((claim_c7_on_missing ⟨5, 1, []⟩ []).1 rfl).2.2,
   ((claim_c7_on_missing ⟨5, 1, []⟩ []).1 rfl).1,
   (claim_c7_on_missing ⟨5, 1, []⟩ exStore5).2
     ⟨5, 1, Value.int 7⟩ (Value.int 7) rfl rfl OnMissing.none⟩

theorem execJob_value (j : Job) (store : JobStore) (vs : List Value) (v : Value)
    (hres : resolveL store j.onMissing j.args = Except.ok vs)
    (hf : j.func vs = JobResult.value v) :
    normalizeResult (j.func vs) =
      Response.mk v Option.none Option.none Option.none Option.none false false ∧
    execJob store j =
      some (store ++ [⟨j.uuid, j.index, v⟩],
        Response.mk v Option.none Option.none Option.none Option.none false false) := by
  have h1 : normalizeResult (j.func vs) =
      Response.mk v Option.none Option.none Option.none Option.none false false := by
    rw [hf]
    rfl
  refine ⟨h1, ?_⟩
  simp only [execJob, hres, h1]
  rfl

/-- C8: a job function return value that is not already a Response is
normalised to `Response(output=value)` with no directive set, the output
document for `(uuid, index)` is appended to the store's main collection,
and that Response is returned. -/
theorem claim_c8_normalise (j : Job) (store : JobStore) (vs : List Value) (v : Value)
    (hres : resolveL store j.onMissing j.args = Except.ok vs)
    (hf : j.func vs = JobResult.value v) :
    normalizeResult (j.func vs) =
      Response.mk v Option.none Option.none Option.none Option.none false false ∧
    execJob store j =
      some (store ++ [⟨j.uuid, j.index, v⟩],
        Response.mk v Option.none Option.none Option.none Option.none false false) :=
  execJob_value j store vs v hres hf

/-- C8 witness: running `add(1, 2)` on the empty store. -/
theorem claim_c8_witness :
    normalizeResult (exJob1.func [Value.int 1, Value.int 2]) =
      Response.mk (Value.int 3) Option.none Option.none Option.none Option.none
        false false ∧
    execJob [] exJob1 =
      some ([⟨10, 1, Value.int 3⟩],
        Response.mk (Value.int 3) Option.none Option.none Option.none Option.none
          false false) :=
  claim_c8_normalise exJob1 [] [Value.int 1, Value.int 2] (Value.int 3) rfl rfl

theorem buildJobs_spec : ∀ (specs : List ((List Value → JobResult) × List Value))
    (s : BuildState),
    (buildJobs specs s).1.map Job.uuid = List.range' s.nextUuid specs.length ∧
    (buildJobs specs s).2.wrappedCalls = s.wrappedCalls ∧
    ∀ j ∈ (buildJobs specs s).1, j.index = 1 := by
  intro specs
  induction specs with
  | nil =>
    intro s
    exact ⟨rfl, rfl, fun j hj => absurd hj (List.not_mem_nil j)⟩
  | cons p rest ih =>
    intro s
    rcases p with ⟨f, args⟩
    have h := ih ⟨s.nextUuid + 1, s.wrappedCalls⟩
    refine ⟨?_, ?_, ?_⟩
    · show Job.uuid (Job.mk s.nextUuid 1 OnMissing.fail f args) ::
        (buildJobs rest ⟨s.nextUuid + 1, s.wrappedCalls⟩).1.map Job.uuid =
        List.range' s.nextUuid (rest.length + 1)
      rw [List.range'_succ]
      rw [h.1]
      rfl
    · exact h.2.1
    · intro j hj
      rcases List.mem_cons.mp hj with rfl | hj
      · rfl
      · exact h.2.2 j hj

/-- C4: constructing Jobs never executes any job function — each call of a
job-decorated function returns a Job object with a fresh uuid (all built
uuids are pairwise distinct and at least the build counter), iteration 1
and the canonical output Reference, and the wrapped-function call counter
is untouched; functions run only under the Manager (`runLoop`/`execJob`). -/
theorem claim_c4_lazy_construction
    (specs : List ((List Value → JobResult) × List Value)) (s : BuildState) :
    (buildJobs specs s).2.wrappedCalls = s.wrappedCalls ∧
    ((buildJobs specs s).1.map Job.uuid).Nodup ∧
    ∀ j ∈ (buildJobs specs s).1,
      j.index = 1 ∧ Job.output j = ⟨j.uuid, 1, []⟩ ∧ s.nextUuid ≤ j.uuid := by
  have h := buildJobs_spec specs s
  refine ⟨h.2.1, ?_, ?_⟩
  · rw [h.1]
    exact List.nodup_range' _ _
  · intro j hj
    have hidx := h.2.2 j hj
    have huuid : j.uuid ∈ List.range' s.nextUuid specs.length := by
      rw [← h.1]
      exact List.mem_map_of_mem Job.uuid hj
    refine ⟨hidx, ?_, (List.mem_range'_1.mp huuid).1⟩
    rw [Job.output, hidx]

/-- C4 witness: building two jobs from counter 0. -/
theorem claim_c4_witness :
    (buildJobs [(exAddFn, []), (exConstFn, [])] ⟨0, 0⟩).2.wrappedCalls = 0 ∧
    ((buildJobs [(exAddFn, []), (exConstFn, [])] ⟨0, 0⟩).1.map Job.uuid).Nodup ∧
    ∀ j ∈ (buildJobs [(exAddFn, []), (exConstFn, [])] ⟨0, 0⟩).1,
      j.index = 1 ∧ Job.output j = ⟨j.uuid, 1, []⟩ ∧ 0 ≤ j.uuid :=
  claim_c4_lazy_construction [(exAddFn, []), (exConstFn, [])] ⟨0, 0⟩

mutual
theorem noRefs_resolveV (store : JobStore) (om : OnMissing) :
    ∀ v, refUuidsV v = [] → resolveV store om v = Except.ok v
  | Value.null, _ => rfl
  | Value.int _, _ => rfl
  | Value.str _, _ => rfl
  | Value.ref r, h => by rw [refUuidsV] at h; cases h
  | Value.list xs, h => by
    rw [refUuidsV] at h
    rw [resolveV, noRefs_resolveL store om xs h]
  | Value.dict fs, h => by
    rw [refUuidsV] at h
    rw [resolveV, noRefs_resolveD store om fs h]

theorem noRefs_resolveL (store : JobStore) (om : OnMissing) :
    ∀ vs, refUuidsL vs = [] → resolveL store om vs = Except.ok vs
  | [], _ => rfl
  | v :: vs, h => by
    rw [refUuidsL] at h
    rcases List.append_eq_nil.mp h with ⟨h1, h2⟩
    rw [resolveL, noRefs_resolveV store om v h1, noRefs_resolveL store om vs h2]

theorem noRefs_resolveD (store : JobStore) (om : OnMissing) :
    ∀ fs, refUuidsD fs = [] → resolveD store om fs = Except.ok fs
  | [], _ => rfl
  | (n, v) :: fs, h => by
    rw [refUuidsD] at h
    rcases List.append_eq_nil.mp h with ⟨h1, h2⟩
    rw [resolveD, noRefs_resolveV store om v h1, noRefs_resolveD store om fs h2]
end

theorem run_plain : ∀ (jobs : List Job) (store : JobStore) (done : List (Nat × Nat))
    (stopU : List Nat),
    (∀ j ∈ jobs, refUuidsL j.args = []) →
    (∀ j ∈ jobs, ∀ vs, ∃ v, j.func vs = JobResult.value v) →
    (jobs.map (fun j => (j.uuid, j.index))).Nodup →
    (∀ j ∈ jobs, (j.uuid, j.index) ∉ done) →
    invokedPairs (runLoop jobs.length ⟨jobs, store, done, stopU, false⟩).2.2 =
      jobs.map (fun j => (j.uuid, j.index)) := by
  intro jobs
  induction jobs with
  | nil => intro store done stopU _ _ _ _; rfl
  | cons j rest ih =>
    intro store done stopU hargs hfun hnd hdone
    have hjargs : refUuidsL j.args = [] := hargs j (List.mem_cons_self _ _)
    rcases hfun j (List.mem_cons_self _ _) j.args with ⟨v, hv⟩
    have hres : resolveL store j.onMissing j.args = Except.ok j.args :=
      noRefs_resolveL store j.onMissing j.args hjargs
    have hexec : execJob store j =
        some (store ++ [⟨j.uuid, j.index, v⟩],
          Response.mk v Option.none Option.none Option.none Option.none false false) :=
      (execJob_value j store j.args v hres hv).2
    have hnotdone : ¬ (j.uuid, j.index) ∈ done := hdone j (List.mem_cons_self _ _)
    have hdir : applyDirectives j
        (Response.mk v Option.none Option.none Option.none Option.none false false) rest =
        some rest := rfl
    show invokedPairs (runLoop (rest.length + 1) ⟨j :: rest, store, done, stopU, false⟩).2.2 = _
    rw [runLoop]
    simp only [if_neg hnotdone, hjargs, List.any_nil, Bool.false_eq_true, if_false, hexec,
      hdir, Response.stopChildren, Response.stopJobflow]
    have ihres := ih (store ++ [⟨j.uuid, j.index, v⟩]) ((j.uuid, j.index) :: done) stopU
      (fun k hk => hargs k (List.mem_cons_of_mem _ hk))
      (fun k hk => hfun k (List.mem_cons_of_mem _ hk))
      (List.Nodup.of_cons hnd)
      ?_
    · rw [invokedPairs, List.filterMap_cons, List.filterMap_cons, List.filterMap_cons]
      show (j.uuid, j.index) :: invokedPairs (runLoop rest.length _).2.2 = _
      rw [ihres]
      rfl
    · intro k hk hmem
      rcases List.mem_cons.mp hmem with heq | hmem2
      · have : (k.uuid, k.index) ∈ rest.map (fun j => (j.uuid, j.index)) :=
          List.mem_map_of_mem _ hk
        rw [heq] at this
        exact (List.nodup_cons.mp hnd).1 this
      · exact hdone k (List.mem_cons_of_mem _ hk) hmem2

theorem kahnGo_no_deps : ∀ (l : List Job) (acc : List Job),
    (∀ j ∈ l, ∀ u ∈ refUuidsL j.args, ∀ k ∈ l, k.uuid ≠ u) →
    kahnGo l.length l acc = some (acc.reverse ++ l) := by
  intro l
  induction l with
  | nil => intro acc _; simp [kahnGo]
  | cons j rest ih =>
    intro acc hyp
    have hready : readyJob rest j = true := by
      rw [readyJob]
      simp only [List.all_eq_true, decide_eq_true_eq]
      intro u hu k hk
      exact hyp j (List.mem_cons_self _ _) u hu k (List.mem_cons_of_mem _ hk)
    show kahnGo (rest.length + 1) (j :: rest) acc = _
    simp only [kahnGo, extractReady, List.reverse_nil, List.nil_append, hready, if_true]
    rw [ih (j :: acc) (fun k hk u hu x hx =>
      hyp k (List.mem_cons_of_mem _ hk) u hu x (List.mem_cons_of_mem _ hx))]
    simp

/-- C9: a Flow with `order=auto` whose jobs have no inter-dependencies is
scheduled in the stable declaration order, a disconnected-jobs warning is
surfaced, and (when the jobs are plain value-returning jobs with distinct
identities) the executed order equals the declaration order. -/
theorem claim_c9_disconnected (f : Flow)
    (hord : f.ord = JobOrder.auto) (hlen : 2 ≤ f.jobs.length)
    (hdeps : ∀ j ∈ f.jobs, ∀ k ∈ f.jobs, ¬ j.uuid ∈ refUuidsL k.args) :
    scheduleOfFlow f = some f.jobs ∧ flowWarnings f ≠ [] ∧
    ∀ (store : JobStore),
      (∀ j ∈ f.jobs, refUuidsL j.args = []) →
      (∀ j ∈ f.jobs, ∀ vs, ∃ v, j.func vs = JobResult.value v) →
      (f.jobs.map (fun j => (j.uuid, j.index))).Nodup →
      (runFlow f.jobs.length f store).map (fun out => invokedPairs out.2.2) =
        some (f.jobs.map (fun j => (j.uuid, j.index))) := by
  have hsched : scheduleOfFlow f = some f.jobs := by
    rw [scheduleOfFlow, hord, kahnSort]
    have := kahnGo_no_deps f.jobs []
      (fun j hj u hu k hk hne => by
        rw [← hne] at hu
        exact hdeps k hk j hj hu)
    rw [this]
    simp
  refine ⟨hsched, ?_, ?_⟩
  · have hne0 : f.jobs ≠ [] := by
      intro h0
      rw [h0] at hlen
      simp at hlen
    rcases List.exists_mem_of_ne_nil f.jobs hne0 with ⟨a, hmem⟩
    have hcond : 2 ≤ f.jobs.length ∧ f.jobs.any (noIncidentEdges f.jobs) := by
      refine ⟨hlen, ?_⟩
      rw [List.any_eq_true]
      refine ⟨a, hmem, ?_⟩
      rw [noIncidentEdges]
      rw [Bool.and_eq_true]
      constructor
      · simp only [List.all_eq_true, decide_eq_true_eq]
        intro u hu k hk hne
        rw [← hne] at hu
        exact hdeps k hk a hmem hu
      · simp only [List.all_eq_true, decide_eq_true_eq]
        intro k hk
        exact hdeps a hmem k hk
    rw [flowWarnings, if_pos hcond]
    simp
  · intro store hargs hfun hnd
    rw [runFlow]
    rw [hsched]
    rw [Option.map_some']
    rw [initCore]
    rw [run_plain f.jobs store [] [] hargs hfun hnd (fun j _ h => by simp at h)]

/-- C9 witness: the two-job disconnected example flow. -/
theorem claim_c9_witness :
    scheduleOfFlow exFlowDisc = some exFlowDisc.jobs ∧
    flowWarnings exFlowDisc ≠ [] ∧
    (runFlow exFlowDisc.jobs.length exFlowDisc []).map (fun out => invokedPairs out.2.2) =
      some (exFlowDisc.jobs.map (fun j => (j.uuid, j.index))) := by
  have h := claim_c9_disconnected exFlowDisc rfl (by decide)
    (by
      intro j hj k hk
      rcases List.mem_cons.mp hj with rfl | hj <;>
        [skip; rcases List.mem_cons.mp hj with rfl | hj] <;>
        [skip; skip; exact absurd hj (List.not_mem_nil _)] <;>
      (rcases List.mem_cons.mp hk with rfl | hk <;>
        [skip; rcases List.mem_cons.mp hk with rfl | hk] <;>
        [skip; skip; exact absurd hk (List.not_mem_nil _)] <;>
      simp [exJob1, exJob3, Job.uuid, Job.args, refUuidsL, refUuidsV, exAddFn, exConstFn]))
  refine ⟨h.1, h.2.1, h.2.2 []
    (by
      intro j hj
      rcases List.mem_cons.mp hj with rfl | hj <;>
        [skip; rcases List.mem_cons.mp hj with rfl | hj] <;>
        [skip; skip; exact absurd hj (List.not_mem_nil _)] <;> rfl)
    (by
      intro j hj vs
      rcases List.mem_cons.mp hj with rfl | hj <;>
        [skip; rcases List.mem_cons.mp hj with rfl | hj] <;>
        [skip; skip; exact absurd hj (List.not_mem_nil _)] <;> exact ⟨_, rfl⟩)
    (by decide)⟩

theorem invokedPairs_nil : invokedPairs [] = [] := rfl

theorem invokedPairs_cons_rs (u i : Nat) (snap : List (Nat × Nat)) (ev : List Event) :
    invokedPairs (Event.resolveStart u i snap :: ev) = invokedPairs ev := rfl

theorem invokedPairs_cons_inv (u i : Nat) (ev : List Event) :
    invokedPairs (Event.invoked u i :: ev) = (u, i) :: invokedPairs ev := rfl

theorem invokedPairs_cons_wr (u i : Nat) (ev : List Event) :
    invokedPairs (Event.wrote u i :: ev) = invokedPairs ev := rfl

theorem runLoop_invoked_fresh : ∀ (fuel : Nat) (s : Core),
    (invokedPairs (runLoop fuel s).2.2).Nodup ∧
    ∀ p ∈ invokedPairs (runLoop fuel s).2.2, p ∉ s.done := by
  intro fuel
  induction fuel with
  | zero => intro s; simp [runLoop, invokedPairs]
  | succ fuel ih =>
    intro s
    rcases s with ⟨sched, store, done, stopU, stopped⟩
    cases stopped with
    | true => simp [runLoop, invokedPairs]
    | false =>
      cases sched with
      | nil => simp [runLoop, invokedPairs]
      | cons j rest =>
        rw [runLoop]
        simp only [Bool.false_eq_true, if_false]
        by_cases hd : (j.uuid, j.index) ∈ done
        · rw [if_pos hd]
          exact ih _
        · rw [if_neg hd]
          by_cases hstop : ((refUuidsL j.args).any fun u => u ∈ stopU) = true
          · rw [if_pos hstop]
            exact ih _
          · rw [if_neg hstop]
            cases hexec : execJob store j with
            | none =>
              rw [invokedPairs_cons_rs]
              exact ih _
            | some p =>
              rcases p with ⟨store', r⟩
              cases hdir : applyDirectives j r rest with
              | none =>
                simp only [hdir]
                refine ⟨by simp [invokedPairs], ?_⟩
                intro p hp
                rw [invokedPairs_cons_rs, invokedPairs_cons_inv, invokedPairs_cons_wr,
                  invokedPairs_nil] at hp
                rcases List.mem_cons.mp hp with rfl | hp
                · exact hd
                · exact absurd hp (List.not_mem_nil p)
              | some sched' =>
                simp only [hdir]
                rw [invokedPairs_cons_rs, invokedPairs_cons_inv, invokedPairs_cons_wr]
                have htail := ih (Core.mk sched' store' ((j.uuid, j.index) :: done)
                  (if r.stopChildren then j.uuid :: stopU else stopU) r.stopJobflow)
                constructor
                · rw [List.nodup_cons]
                  refine ⟨?_, htail.1⟩
                  intro hmem
                  exact htail.2 _ hmem (List.mem_cons_self _ _)
                · intro p hp
                  rcases List.mem_cons.mp hp with rfl | hp
                  · exact hd
                  · intro hpd
                    exact htail.2 p hp (List.mem_cons_of_mem _ hpd)

/-- C3: across a whole run (including any work added by replace, detour or
addition directives) the Manager invokes each `(uuid, index)` pair's
function at most once — the list of invoked pairs has no duplicates. -/
theorem claim_c3_at_most_once (fuel : Nat) (f : Flow) (store : JobStore)
    (sched : List Job) (_hsched : scheduleOfFlow f = some sched) :
    (invokedPairs (runLoop fuel (initCore sched store)).2.2).Nodup :=
  (runLoop_invoked_fresh fuel (initCore sched store)).1

/-- C3 witness: the dependent two-job example flow. -/
theorem claim_c3_witness :
    (invokedPairs (runLoop 5 (initCore [exJob1, exJob2] [])).2.2).Nodup :=
  claim_c3_at_most_once 5 exFlow [] [exJob1, exJob2] rfl

theorem insertBD_append (u : Nat) (njs : List Job) :
    ∀ l, (∀ k ∈ l, ¬ u ∈ refUuidsL k.args) →
      insertBeforeDependents u njs l = l ++ njs := by
  intro l
  induction l with
  | nil => intro _; rfl
  | cons k rest ih =>
    intro h
    rw [insertBeforeDependents, if_neg (h k (List.mem_cons_self _ _)),
      ih (fun x hx => h x (List.mem_cons_of_mem _ hx))]
    rfl

/-- C10: a job with no not-yet-started dependent in the schedule that
returns a single new Job or Flow as `detour` produces exactly the same
execution as returning it as `addition` — the same final state, the same
event log (same jobs in the same order), and the same outputs in the
recorded responses. -/
theorem claim_c10_detour_addition (u i : Nat) (om : OnMissing) (args : List Value)
    (g : List Value → Value) (w : List Value → Work) (sd : List Value → Option Value)
    (rest : List Job) (store : JobStore) (done : List (Nat × Nat)) (stopU : List Nat)
    (fuel : Nat)
    (hdep : ∀ k ∈ rest, ¬ u ∈ refUuidsL k.args) :
    (runLoop fuel (Core.mk (Job.mk u i om (fun vs => JobResult.resp
        (Response.mk (g vs) Option.none (some (w vs)) Option.none (sd vs) false false))
        args :: rest) store done stopU false)).1.store =
      (runLoop fuel (Core.mk (Job.mk u i om (fun vs => JobResult.resp
        (Response.mk (g vs) Option.none Option.none (some (w vs)) (sd vs) false false))
        args :: rest) store done stopU false)).1.store ∧
    (runLoop fuel (Core.mk (Job.mk u i om (fun vs => JobResult.resp
        (Response.mk (g vs) Option.none (some (w vs)) Option.none (sd vs) false false))
        args :: rest) store done stopU false)).2.2 =
      (runLoop fuel (Core.mk (Job.mk u i om (fun vs => JobResult.resp
        (Response.mk (g vs) Option.none Option.none (some (w vs)) (sd vs) false false))
        args :: rest) store done stopU false)).2.2 ∧
    ((runLoop fuel (Core.mk (Job.mk u i om (fun vs => JobResult.resp
        (Response.mk (g vs) Option.none (some (w vs)) Option.none (sd vs) false false))
        args :: rest) store done stopU false)).2.1.map (fun p => (p.1, p.2.output))) =
      ((runLoop fuel (Core.mk (Job.mk u i om (fun vs => JobResult.resp
        (Response.mk (g vs) Option.none Option.none (some (w vs)) (sd vs) false false))
        args :: rest) store done stopU false)).2.1.map (fun p => (p.1, p.2.output))) := by
  cases fuel with
  | zero =>
    repeat' apply And.intro
    all_goals trivial
  | succ fuel =>
    simp only [runLoop]
    simp only [Job.uuid, Job.index, Job.args, Job.onMissing, Job.func,
      Bool.false_eq_true, if_false]
    by_cases hd : (u, i) ∈ done
    · rw [if_pos hd, if_pos hd]
      repeat' apply And.intro
      all_goals trivial
    · rw [if_neg hd, if_neg hd]
      by_cases hstop : ((refUuidsL args).any fun x => x ∈ stopU) = true
      · rw [if_pos hstop, if_pos hstop]
        repeat' apply And.intro
        all_goals trivial
      · rw [if_neg hstop, if_neg hstop]
        simp only [execJob, Job.onMissing, Job.args, Job.func]
        cases hres : resolveL store om args with
        | error e =>
          simp only [hres]
          repeat' apply And.intro
          all_goals trivial
        | ok vs =>
          simp only [hres, normalizeResult, applyDirectives, applyReplace,
            applyDetour, applyAddition, Response.replace,
            Response.detour, Response.addition, Response.stopChildren,
            Response.stopJobflow, Response.output]
          cases hws : workSchedule (w vs) with
          | none =>
            simp only [hws]
            repeat' apply And.intro
            all_goals trivial
          | some njs =>
            simp only [hws, Job.uuid]
            rw [insertBD_append u njs rest hdep]
            repeat' apply And.intro
            all_goals trivial

/-- C10 witness: a concrete directive job followed by an independent job. -/
theorem claim_c10_witness :
    (runLoop 5 (Core.mk (Job.mk 50 1 OnMissing.fail (fun vs => JobResult.resp
        (Response.mk ((fun _ => Value.int 1) vs) Option.none
          (some ((fun _ => Work.job exJob3) vs)) Option.none
          ((fun _ => Option.none) vs) false false))
        [] :: [exJob1]) [] [] [] false)).1.store =
      (runLoop 5 (Core.mk (Job.mk 50 1 OnMissing.fail (fun vs => JobResult.resp
        (Response.mk ((fun _ => Value.int 1) vs) Option.none Option.none
          (some ((fun _ => Work.job exJob3) vs))
          ((fun _ => Option.none) vs) false false))
        [] :: [exJob1]) [] [] [] false)).1.store ∧
    (runLoop 5 (Core.mk (Job.mk 50 1 OnMissing.fail (fun vs => JobResult.resp
        (Response.mk ((fun _ => Value.int 1) vs) Option.none
          (some ((fun _ => Work.job exJob3) vs)) Option.none
          ((fun _ => Option.none) vs) false false))
        [] :: [exJob1]) [] [] [] false)).2.2 =
      (runLoop 5 (Core.mk (Job.mk 50 1 OnMissing.fail (fun vs => JobResult.resp
        (Response.mk ((fun _ => Value.int 1) vs) Option.none Option.none
          (some ((fun _ => Work.job exJob3) vs))
          ((fun _ => Option.none) vs) false false))
        [] :: [exJob1]) [] [] [] false)).2.2 ∧
    ((runLoop 5 (Core.mk (Job.mk 50 1 OnMissing.fail (fun vs => JobResult.resp
        (Response.mk ((fun _ => Value.int 1) vs) Option.none
          (some ((fun _ => Work.job exJob3) vs)) Option.none
          ((fun _ => Option.none) vs) false false))
        [] :: [exJob1]) [] [] [] false)).2.1.map (fun p => (p.1, p.2.output))) =
      ((runLoop 5 (Core.mk (Job.mk 50 1 OnMissing.fail (fun vs => JobResult.resp
        (Response.mk ((fun _ => Value.int 1) vs) Option.none Option.none
          (some ((fun _ => Work.job exJob3) vs))
          ((fun _ => Option.none) vs) false false))
        [] :: [exJob1]) [] [] [] false)).2.1.map (fun p => (p.1, p.2.output))) :=
  claim_c10_detour_addition 50 1 OnMissing.fail []
    (fun _ => Value.int 1) (fun _ => Work.job exJob3) (fun _ => Option.none)
    [exJob1] [] [] [] 5
    (by
      intro k hk
      rcases List.mem_cons.mp hk with rfl | hk
      · intro hmem
        simp [exJob1, Job.args, refUuidsL, refUuidsV] at hmem
      · exact absurd hk (List.not_mem_nil _))

theorem latestDoc_append_fresh (u n : Nat) (v : Value) :
    ∀ store : JobStore, (∀ d ∈ store, d.uuid = u → d.index < n) →
      latestDoc (store ++ [⟨u, n, v⟩]) u = some ⟨u, n, v⟩ := by
  intro store
  induction store with
  | nil =>
    intro _
    show betterDoc u ⟨u, n, v⟩ (latestDoc [] u) = some ⟨u, n, v⟩
    rw [latestDoc, betterDoc, if_pos rfl]
  | cons d rest ih =>
    intro h
    show betterDoc u d (latestDoc (rest ++ [⟨u, n, v⟩]) u) = some ⟨u, n, v⟩
    rw [ih (fun x hx hxu => h x (List.mem_cons_of_mem _ hx) hxu), betterDoc]
    by_cases hd : d.uuid = u ∧ OutputDoc.index ⟨u, n, v⟩ < d.index
    · exact absurd hd.2 (not_lt_of_gt (h d (List.mem_cons_self _ _) hd.1))
    · rw [if_neg hd]

theorem exec_then_resolve (t : Job) (store st' : JobStore) (r : Response)
    (hmax : ∀ d ∈ store, d.uuid = t.uuid → d.index < t.index)
    (hexec : execJob store t = some (st', r)) :
    ∀ (i : Nat) (om : OnMissing),
      Reference.resolve ⟨t.uuid, i, []⟩ st' om = Except.ok r.output := by
  intro i om
  cases hres : resolveL store t.onMissing t.args with
  | error e =>
    simp only [execJob, hres] at hexec
    exact Option.noConfusion hexec
  | ok vs =>
    simp only [execJob, hres, Option.some.injEq, Prod.mk.injEq] at hexec
    have hld := latestDoc_append_fresh t.uuid t.index
      ((normalizeResult (t.func vs)).output) store hmax
    rw [← hexec.1, ← hexec.2]
    simp only [Reference.resolve, hld, applyPath]

/-- C1: materialising `Response(replace=F)` for a job J (with F a Job or
an output-bearing Flow) produces a schedule whose terminal job reuses J's
uuid with J's index incremented by 1; for a Flow the terminal job is the
store-inputs job fed by F's output expression, so its response output is
the resolved leaf output of F, and once that terminal job has executed,
every Reference to J's uuid resolves (via the latest-index lookup) to
that leaf output. -/
theorem claim_c1_replace_rewires (j : Job) (wk : Work) (js : List Job)
    (htarget : (∃ k, wk = Work.job k) ∨
      (∃ f o, wk = Work.flow f ∧ f.output = some o))
    (hprep : prepareReplace j wk = some js) :
    ∃ front t, js = front ++ [t] ∧ t.uuid = j.uuid ∧ t.index = j.index + 1 ∧
      (∀ f o, wk = Work.flow f → f.output = some o →
        t = storeInputsJob j.uuid (j.index + 1) o) ∧
      ∀ (store st' : JobStore) (r : Response),
        (∀ d ∈ store, d.uuid = j.uuid → d.index ≤ j.index) →
        execJob store t = some (st', r) →
        ∀ (i : Nat) (om : OnMissing),
          Reference.resolve ⟨j.uuid, i, []⟩ st' om = Except.ok r.output := by
  rcases htarget with ⟨k, rfl⟩ | ⟨f, o, rfl, hout⟩
  · rw [prepareReplace] at hprep
    injection hprep with hjs
    refine ⟨[], Job.mk j.uuid (j.index + 1) k.onMissing k.func k.args, hjs.symm,
      rfl, rfl, ?_, ?_⟩
    · intro f o hflow
      cases hflow
    · intro store st' r hmax hexec i om
      have := exec_then_resolve (Job.mk j.uuid (j.index + 1) k.onMissing k.func k.args)
        store st' r ?_ hexec i om
      · exact this
      · intro d hd hdu
        exact Nat.lt_succ_of_le (hmax d hd hdu)
  · rw [prepareReplace] at hprep
    cases hsched : scheduleOfFlow f with
    | none => rw [hsched] at hprep; cases hprep
    | some s =>
      rw [hsched, hout] at hprep
      injection hprep with hjs
      refine ⟨s, storeInputsJob j.uuid (j.index + 1) o, hjs.symm, rfl, rfl, ?_, ?_⟩
      · intro f' o' hflow hout'
        injection hflow with hf
        rw [← hf] at hout'
        rw [hout] at hout'
        injection hout' with ho
        rw [ho]
      · intro store st' r hmax hexec i om
        have := exec_then_resolve (storeInputsJob j.uuid (j.index + 1) o)
          store st' r ?_ hexec i om
        · exact this
        · intro d hd hdu
          exact Nat.lt_succ_of_le (hmax d hd hdu)

/-- C1 witness: replacing job `exJob3` (uuid 12) by a fresh job. -/
theorem claim_c1_witness :
    ∃ front t,
      [Job.mk 12 2 OnMissing.fail exConstFn []] = front ++ [t] ∧
      t.uuid = Job.uuid exJob3 ∧ t.index = Job.index exJob3 + 1 ∧
      (∀ f o, Work.job (Job.mk 99 1 OnMissing.fail exConstFn []) = Work.flow f →
        f.output = some o → t = storeInputsJob (Job.uuid exJob3) (Job.index exJob3 + 1) o) ∧
      ∀ (store st' : JobStore) (r : Response),
        (∀ d ∈ store, d.uuid = Job.uuid exJob3 → d.index ≤ Job.index exJob3) →
        execJob store t = some (st', r) →
        ∀ (i : Nat) (om : OnMissing),
          Reference.resolve ⟨Job.uuid exJob3, i, []⟩ st' om = Except.ok r.output :=
  claim_c1_replace_rewires exJob3 (Work.job (Job.mk 99 1 OnMissing.fail exConstFn []))
    [Job.mk 12 2 OnMissing.fail exConstFn []]
    (Or.inl ⟨Job.mk 99 1 OnMissing.fail exConstFn [], rfl⟩) rfl

theorem extractReady_spec : ∀ (l pre : List Job) (j : Job) (rest : List Job),
    extractReady pre l = some (j, rest) →
    ∃ l₁ l₂, l = l₁ ++ j :: l₂ ∧ rest = pre.reverse ++ l₁ ++ l₂ ∧
      readyJob rest j = true := by
  intro l
  induction l with
  | nil => intro pre j rest h; cases h
  | cons x xs ih =>
    intro pre j rest h
    rw [extractReady] at h
    by_cases hr : readyJob (pre.reverse ++ xs) x = true
    · rw [if_pos hr] at h
      injection h with h'
      have h1 : x = j := congrArg Prod.fst h'
      have h2 : pre.reverse ++ xs = rest := congrArg Prod.snd h'
      refine ⟨[], xs, ?_, ?_, ?_⟩
      · rw [h1]; rfl
      · rw [← h2]; simp
      · rw [← h2, ← h1]; exact hr
    · rw [if_neg hr] at h
      rcases ih (x :: pre) j rest h with ⟨l₁, l₂, hl, hrest, hready⟩
      refine ⟨x :: l₁, l₂, by rw [hl]; rfl, ?_, hready⟩
      rw [hrest]
      simp [List.reverse_cons, List.append_assoc]

theorem kahnGo_spec : ∀ (n : Nat) (remaining acc out : List Job),
    kahnGo n remaining acc = some out →
    ∃ tail, out = acc.reverse ++ tail ∧ tail.Perm remaining ∧ SortedTail tail := by
  intro n
  induction n with
  | zero =>
    intro remaining acc out h
    cases remaining with
    | nil =>
      rw [kahnGo] at h
      injection h with h'
      refine ⟨[], by rw [← h']; simp, List.Perm.refl _, ?_⟩
      intro t₁ b t₂ habs
      simp at habs
    | cons y ys =>
      rw [kahnGo] at h
      simp at h
  | succ n ih =>
    intro remaining acc out h
    cases remaining with
    | nil =>
      rw [kahnGo] at h
      injection h with h'
      refine ⟨[], by rw [← h']; simp, List.Perm.refl _, ?_⟩
      intro t₁ b t₂ habs
      simp at habs
    | cons y ys =>
      rw [kahnGo] at h
      cases hex : extractReady [] (y :: ys) with
      | none => rw [hex] at h; cases h
      | some p =>
        rcases p with ⟨j, rest⟩
        rw [hex] at h
        rcases ih rest (j :: acc) out h with ⟨tail', hout, hperm, hsorted⟩
        rcases extractReady_spec (y :: ys) [] j rest hex with ⟨l₁, l₂, hl, hrest, hready⟩
        rw [List.reverse_nil, List.nil_append] at hrest
        refine ⟨j :: tail', ?_, ?_, ?_⟩
        · rw [hout]
          simp [List.reverse_cons, List.append_assoc]
        · rw [hl]
          exact (List.Perm.cons j (hrest ▸ hperm)).trans List.perm_middle.symm
        · intro t₁ b t₂ heq a ha
          cases t₁ with
          | nil =>
            injection heq with hb ht
            rw [← hb]
            intro hmem
            rw [readyJob] at hready
            simp only [List.all_eq_true, decide_eq_true_eq] at hready
            have := hready a.uuid hmem a ?_
            · exact this rfl
            · rw [← ht] at ha
              exact (hperm.mem_iff).mp ha
          | cons x t₁' =>
            injection heq with hx ht
            exact hsorted t₁' b t₂ ht a ha

theorem linearOk_sorted : ∀ l, linearOk l = true → SortedTail l := by
  intro l
  induction l with
  | nil =>
    intro _ t₁ b t₂ habs
    simp at habs
  | cons j rest ih =>
    intro h t₁ b t₂ heq a ha
    rw [linearOk, Bool.and_eq_true] at h
    cases t₁ with
    | nil =>
      injection heq with hb ht
      rw [← hb]
      intro hmem
      simp only [List.all_eq_true, decide_eq_true_eq] at h
      have := h.1 a.uuid hmem a ?_
      · exact this rfl
      · rw [← ht] at ha; exact ha
    | cons x t₁' =>
      injection heq with hx ht
      exact ih h.2 t₁' b t₂ ht a ha

theorem scheduleOfFlow_spec (f : Flow) (sched : List Job)
    (h : scheduleOfFlow f = some sched) :
    sched.Perm f.jobs ∧ SortedTail sched := by
  cases hord : f.ord with
  | auto =>
    simp only [scheduleOfFlow, hord, kahnSort] at h
    rcases kahnGo_spec f.jobs.length f.jobs [] sched h with ⟨tail, hout, hperm, hsorted⟩
    rw [List.reverse_nil, List.nil_append] at hout
    rw [hout]
    exact ⟨hperm, hsorted⟩
  | linear =>
    simp only [scheduleOfFlow, hord] at h
    by_cases hlin : linearOk f.jobs = true
    · rw [if_pos hlin] at h
      injection h with h'
      rw [← h']
      exact ⟨List.Perm.refl _, linearOk_sorted f.jobs hlin⟩
    · rw [if_neg hlin] at h
      cases h

theorem workSchedule_mem (w : Work) (l : List Job) (h : workSchedule w = some l) :
    ∀ k ∈ l, k ∈ workJobsRaw w := by
  cases w with
  | job k0 =>
    rw [workSchedule] at h
    injection h with h'
    intro k hk
    rw [← h'] at hk
    exact hk
  | flow f =>
    rw [workSchedule] at h
    intro k hk
    rw [workJobsRaw]
    exact ((scheduleOfFlow_spec f l h).1.mem_iff).mp hk

theorem prepareReplace_mem (j : Job) (w : Work) (l : List Job)
    (h : prepareReplace j w = some l) :
    ∀ k ∈ l, k ∈ workJobsRaw w ∨ (k.uuid = j.uuid ∧ k.index = j.index + 1) := by
  cases w with
  | job k0 =>
    rw [prepareReplace] at h
    injection h with h'
    intro k hk
    rw [← h'] at hk
    rcases List.mem_cons.mp hk with rfl | hk
    · exact Or.inr ⟨rfl, rfl⟩
    · exact absurd hk (List.not_mem_nil k)
  | flow f =>
    rw [prepareReplace] at h
    cases hs : scheduleOfFlow f with
    | none => rw [hs] at h; cases h
    | some s =>
      rw [hs] at h
      cases hout : f.output with
      | none =>
        rw [hout] at h
        injection h with h'
        intro k hk
        rw [← h'] at hk
        rw [workJobsRaw]
        exact Or.inl (((scheduleOfFlow_spec f s hs).1.mem_iff).mp hk)
      | some o =>
        rw [hout] at h
        injection h with h'
        intro k hk
        rw [← h'] at hk
        rcases List.mem_append.mp hk with hk | hk
        · rw [workJobsRaw]
          exact Or.inl (((scheduleOfFlow_spec f s hs).1.mem_iff).mp hk)
        · rcases List.mem_cons.mp hk with rfl | hk
          · exact Or.inr ⟨rfl, rfl⟩
          · exact absurd hk (List.not_mem_nil k)

theorem insertBD_split (u : Nat) (njs : List Job) :
    ∀ l, ∃ p q, l = p ++ q ∧
      insertBeforeDependents u njs l = p ++ (njs ++ q) := by
  intro l
  induction l with
  | nil => exact ⟨[], [], rfl, by simp [insertBeforeDependents]⟩
  | cons k rest ih =>
    by_cases hk : u ∈ refUuidsL k.args
    · refine ⟨[], k :: rest, rfl, ?_⟩
      rw [insertBeforeDependents, if_pos hk]
      simp
    · rcases ih with ⟨p, q, hl, hins⟩
      refine ⟨k :: p, q, by rw [hl]; rfl, ?_⟩
      rw [insertBeforeDependents, if_neg hk, hins]
      rfl

theorem sublist_insert_block : ∀ (p m q njs : List Job),
    List.Sublist m (p ++ q) → List.Sublist m (p ++ (njs ++ q)) := by
  intro p
  induction p with
  | nil =>
    intro m q njs h
    exact h.trans (List.sublist_append_right njs q)
  | cons x p' ih =>
    intro m q njs h
    cases h with
    | cons _ h' => exact List.Sublist.cons x (ih _ _ njs h')
    | cons₂ _ h' => exact List.Sublist.cons₂ x (ih _ _ njs h')

theorem applyReplace_spec (j : Job) (r : Response) (rest s1 : List Job)
    (h : applyReplace j r rest = some s1) :
    (∀ m, List.Sublist m rest → List.Sublist m s1) ∧
    (∀ k ∈ s1, k ∈ rest ∨ k ∈ optWorkJobs r.replace ∨
      (k.uuid = j.uuid ∧ k.index = j.index + 1)) ∧
    ∀ p : Job → Bool,
      (∀ k, k ∈ optWorkJobs r.replace ∨ (k.uuid = j.uuid ∧ k.index = j.index + 1) →
        p k = false) →
      s1.countP p = rest.countP p := by
  cases hrep : r.replace with
  | none =>
    simp only [applyReplace, hrep] at h
    injection h with h'
    rw [← h']
    exact ⟨fun m hm => hm, fun k hk => Or.inl hk, fun p _ => rfl⟩
  | some w =>
    simp only [applyReplace, hrep] at h
    cases hpr : prepareReplace j w with
    | none => simp only [hpr] at h; exact Option.noConfusion h
    | some njs =>
      simp only [hpr] at h
      injection h with h'
      rw [← h']
      have hmem := prepareReplace_mem j w njs hpr
      refine ⟨fun m hm => hm.trans (List.sublist_append_right njs rest), ?_, ?_⟩
      · intro k hk
        rcases List.mem_append.mp hk with hk | hk
        · rcases hmem k hk with hraw | hid
          · exact Or.inr (Or.inl (by rw [optWorkJobs]; exact hraw))
          · exact Or.inr (Or.inr hid)
        · exact Or.inl hk
      · intro p hp
        rw [List.countP_append]
        have hz : njs.countP p = 0 := by
          rw [List.countP_eq_zero]
          intro k hk
          rcases hmem k hk with hraw | hid
          · rw [hp k (Or.inl (by rw [optWorkJobs]; exact hraw))]
            exact Bool.false_ne_true
          · rw [hp k (Or.inr hid)]
            exact Bool.false_ne_true
        rw [hz]
        omega

theorem applyDetour_spec (j : Job) (r : Response) (s1 s2 : List Job)
    (h : applyDetour j r s1 = some s2) :
    (∀ m, List.Sublist m s1 → List.Sublist m s2) ∧
    (∀ k ∈ s2, k ∈ s1 ∨ k ∈ optWorkJobs r.detour) ∧
    ∀ p : Job → Bool, (∀ k ∈ optWorkJobs r.detour, p k = false) →
      s2.countP p = s1.countP p := by
  cases hdet : r.detour with
  | none =>
    simp only [applyDetour, hdet] at h
    injection h with h'
    rw [← h']
    exact ⟨fun m hm => hm, fun k hk => Or.inl hk, fun p _ => rfl⟩
  | some w =>
    simp only [applyDetour, hdet] at h
    cases hws : workSchedule w with
    | none => simp only [hws] at h; exact Option.noConfusion h
    | some njs =>
      simp only [hws] at h
      injection h with h'
      rw [← h']
      have hmem := workSchedule_mem w njs hws
      rcases insertBD_split j.uuid njs s1 with ⟨p1, q1, hl, hins⟩
      rw [hins]
      refine ⟨?_, ?_, ?_⟩
      · intro m hm
        rw [hl] at hm
        exact sublist_insert_block p1 m q1 njs hm
      · intro k hk
        rcases List.mem_append.mp hk with hk | hk
        · exact Or.inl (by rw [hl]; exact List.mem_append_left _ hk)
        · rcases List.mem_append.mp hk with hk | hk
          · exact Or.inr (by rw [optWorkJobs]; exact hmem k hk)
          · exact Or.inl (by rw [hl]; exact List.mem_append_right _ hk)
      · intro p hp
        rw [hl, List.countP_append, List.countP_append, List.countP_append]
        have hz : njs.countP p = 0 := by
          rw [List.countP_eq_zero]
          intro k hk
          rw [hp k (by rw [optWorkJobs]; exact hmem k hk)]
          exact Bool.false_ne_true
        rw [hz]
        omega

theorem applyAddition_spec (r : Response) (s2 s3 : List Job)
    (h : applyAddition r s2 = some s3) :
    (∀ m, List.Sublist m s2 → List.Sublist m s3) ∧
    (∀ k ∈ s3, k ∈ s2 ∨ k ∈ optWorkJobs r.addition) ∧
    ∀ p : Job → Bool, (∀ k ∈ optWorkJobs r.addition, p k = false) →
      s3.countP p = s2.countP p := by
  cases hadd : r.addition with
  | none =>
    simp only [applyAddition, hadd] at h
    injection h with h'
    rw [← h']
    exact ⟨fun m hm => hm, fun k hk => Or.inl hk, fun p _ => rfl⟩
  | some w =>
    simp only [applyAddition, hadd] at h
    cases hws : workSchedule w with
    | none => simp only [hws] at h; exact Option.noConfusion h
    | some njs =>
      simp only [hws] at h
      injection h with h'
      rw [← h']
      have hmem := workSchedule_mem w njs hws
      refine ⟨?_, ?_, ?_⟩
      · intro m hm
        exact hm.trans (List.sublist_append_left s2 njs)
      · intro k hk
        rcases List.mem_append.mp hk with hk | hk
        · exact Or.inl hk
        · exact Or.inr (by rw [optWorkJobs]; exact hmem k hk)
      · intro p hp
        rw [List.countP_append]
        have hz : njs.countP p = 0 := by
          rw [List.countP_eq_zero]
          intro k hk
          rw [hp k (by rw [optWorkJobs]; exact hmem k hk)]
          exact Bool.false_ne_true
        rw [hz]
        omega

theorem applyDirectives_spec (j : Job) (r : Response) (rest sched' : List Job)
    (h : applyDirectives j r rest = some sched') :
    (∀ m, List.Sublist m rest → List.Sublist m sched') ∧
    (∀ k ∈ sched', k ∈ rest ∨ k ∈ responseWorkJobs r ∨
      (k.uuid = j.uuid ∧ k.index = j.index + 1)) ∧
    ∀ p : Job → Bool,
      (∀ k, k ∈ responseWorkJobs r ∨ (k.uuid = j.uuid ∧ k.index = j.index + 1) →
        p k = false) →
      sched'.countP p = rest.countP p := by
  rw [applyDirectives] at h
  cases h1 : applyReplace j r rest with
  | none => simp only [h1] at h; exact Option.noConfusion h
  | some s1 =>
    simp only [h1] at h
    cases h2 : applyDetour j r s1 with
    | none => simp only [h2] at h; exact Option.noConfusion h
    | some s2 =>
      simp only [h2] at h
      have hr := applyReplace_spec j r rest s1 h1
      have hd := applyDetour_spec j r s1 s2 h2
      have ha := applyAddition_spec r s2 sched' h
      refine ⟨?_, ?_, ?_⟩
      · intro m hm
        exact ha.1 m (hd.1 m (hr.1 m hm))
      · intro k hk
        rcases ha.2.1 k hk with hk2 | hraw
        · rcases hd.2.1 k hk2 with hk1 | hraw
          · rcases hr.2.1 k hk1 with hk0 | hraw | hid
            · exact Or.inl hk0
            · exact Or.inr (Or.inl (List.mem_append_left _
                (List.mem_append_left _ hraw)))
            · exact Or.inr (Or.inr hid)
          · exact Or.inr (Or.inl (List.mem_append_left _
              (List.mem_append_right _ hraw)))
        · exact Or.inr (Or.inl (List.mem_append_right _ hraw))
      · intro p hp
        rw [ha.2.2 p (fun k hk => hp k (Or.inl (List.mem_append_right _ hk)))]
        rw [hd.2.2 p (fun k hk => hp k (Or.inl (List.mem_append_left _
          (List.mem_append_right _ hk))))]
        exact hr.2.2 p (fun k hk => hp k (by
          rcases hk with hraw | hid
          · exact Or.inl (List.mem_append_left _ (List.mem_append_left _ hraw))
          · exact Or.inr hid))

theorem execJob_store {store : JobStore} {j : Job} {st' : JobStore} {r : Response}
    (h : execJob store j = some (st', r)) :
    st' = store ++ [⟨j.uuid, j.index, r.output⟩] := by
  cases hres : resolveL store j.onMissing j.args with
  | error e =>
    simp only [execJob, hres] at h
    exact Option.noConfusion h
  | ok vs =>
    simp only [execJob, hres, Option.some.injEq, Prod.mk.injEq] at h
    rw [← h.1, ← h.2]

theorem sublist_pair_cons {A B j : Job} {rest : List Job}
    (h : List.Sublist [A, B] (j :: rest)) :
    (j = A ∧ List.Sublist [B] rest) ∨ List.Sublist [A, B] rest := by
  cases h with
  | cons _ h' => exact Or.inr h'
  | cons₂ _ h' => exact Or.inl ⟨rfl, h'⟩

theorem uniqueB_tail {B j : Job} {rest : List Job}
    (h : pairCountB B (j :: rest) ≤ 1) : pairCountB B rest ≤ 1 := by
  rw [pairCountB, List.countP_cons] at h
  rw [pairCountB]
  omega

theorem resolveStart_here (A B j : Job) (rest : List Job) (store : JobStore)
    (done : List (Nat × Nat)) (stopU : List Nat)
    (hedge : A.uuid ∈ refUuidsL B.args) (hneq : A.uuid ≠ B.uuid)
    (hGood : GoodAB A B (Core.mk (j :: rest) store done stopU false))
    (hUuid : UuidB B (Core.mk (j :: rest) store done stopU false))
    (hUniq : UniqueB B (Core.mk (j :: rest) store done stopU false))
    (hstop : ¬ ((refUuidsL j.args).any fun u => u ∈ stopU) = true)
    (h1 : B.uuid = j.uuid) (h2 : B.index = j.index) :
    (A.uuid, A.index) ∈ storePairs store := by
  have hjB : j = B := by
    rcases hUuid j (List.mem_cons_self _ _) h1.symm with hj | hlt
    · exact hj
    · rw [h2] at hlt
      exact absurd hlt (lt_irrefl _)
  rcases hGood with hst | hstopped | hsub
  · exact hst
  · exfalso
    apply hstop
    rw [List.any_eq_true]
    refine ⟨A.uuid, ?_, by simp [hstopped]⟩
    rw [hjB]
    exact hedge
  · exfalso
    rcases sublist_pair_cons hsub with ⟨hjA, _⟩ | hsub'
    · rw [hjB] at hjA
      exact hneq (by rw [hjA])
    · have hBmem : B ∈ rest := hsub'.subset (by simp)
      have hcnt := hUniq
      rw [UniqueB, pairCountB, List.countP_cons] at hcnt
      have hpj : (j.uuid == B.uuid && j.index == B.index) = true := by
        rw [hjB]
        simp
      rw [hpj, if_pos rfl] at hcnt
      have h0 : List.countP
          (fun k => k.uuid == B.uuid && k.index == B.index) rest = 0 := by
        omega
      have hB0 := List.countP_eq_zero.mp h0 B hBmem
      simp at hB0

theorem runLoop_c2 (A B : Job) (hedge : A.uuid ∈ refUuidsL B.args)
    (hneq : A.uuid ≠ B.uuid) :
    ∀ (fuel : Nat) (s : Core),
    GoodAB A B s → DoneSub s → UuidB B s → UniqueB B s →
    (∀ e ∈ (runLoop fuel s).2.1, ∀ k ∈ responseWorkJobs e.2, k.uuid ≠ B.uuid) →
    ∀ snap, Event.resolveStart B.uuid B.index snap ∈ (runLoop fuel s).2.2 →
      (A.uuid, A.index) ∈ snap := by
  intro fuel
  induction fuel with
  | zero =>
    intro s _ _ _ _ _ snap hmem
    exact absurd hmem (List.not_mem_nil _)
  | succ fuel ih =>
    intro s hGood hDone hUuid hUniq hFresh snap hmem
    rcases s with ⟨sched, store, done, stopU, stopped⟩
    cases stopped with
    | true => simp [runLoop] at hmem
    | false =>
      cases sched with
      | nil => simp [runLoop] at hmem
      | cons j rest =>
        rw [runLoop] at hmem hFresh
        simp only [Bool.false_eq_true, if_false] at hmem hFresh
        by_cases hd : (j.uuid, j.index) ∈ done
        · rw [if_pos hd] at hmem hFresh
          refine ih (Core.mk rest store done stopU false) ?_ hDone ?_ ?_ hFresh snap hmem
          · rcases hGood with hst | hstp | hsub
            · exact Or.inl hst
            · exact Or.inr (Or.inl hstp)
            · rcases sublist_pair_cons hsub with ⟨hjA, _⟩ | hsub'
              · refine Or.inl ?_
                rw [← hjA]
                exact hDone _ hd
              · exact Or.inr (Or.inr hsub')
          · intro k hk
            exact hUuid k (List.mem_cons_of_mem _ hk)
          · exact uniqueB_tail hUniq
        · rw [if_neg hd] at hmem hFresh
          by_cases hstop : ((refUuidsL j.args).any fun u => u ∈ stopU) = true
          · rw [if_pos hstop] at hmem hFresh
            refine ih (Core.mk rest store done (j.uuid :: stopU) false) ?_ hDone ?_ ?_ hFresh snap hmem
            · rcases hGood with hst | hstp | hsub
              · exact Or.inl hst
              · exact Or.inr (Or.inl (List.mem_cons_of_mem _ hstp))
              · rcases sublist_pair_cons hsub with ⟨hjA, _⟩ | hsub'
                · refine Or.inr (Or.inl ?_)
                  rw [← hjA]
                  exact List.mem_cons_self _ _
                · exact Or.inr (Or.inr hsub')
            · intro k hk
              exact hUuid k (List.mem_cons_of_mem _ hk)
            · exact uniqueB_tail hUniq
          · rw [if_neg hstop] at hmem hFresh
            cases hexec : execJob store j with
            | none =>
              simp only [hexec] at hmem hFresh
              rcases List.mem_cons.mp hmem with heq | hmem'
              · injection heq with h1 h2 h3
                rw [h3]
                exact resolveStart_here A B j rest store done stopU hedge hneq
                  hGood hUuid hUniq hstop h1 h2
              · refine ih (Core.mk rest store done (j.uuid :: stopU) false) ?_ hDone ?_ ?_ hFresh snap hmem'
                · rcases hGood with hst | hstp | hsub
                  · exact Or.inl hst
                  · exact Or.inr (Or.inl (List.mem_cons_of_mem _ hstp))
                  · rcases sublist_pair_cons hsub with ⟨hjA, _⟩ | hsub'
                    · refine Or.inr (Or.inl ?_)
                      rw [← hjA]
                      exact List.mem_cons_self _ _
                    · exact Or.inr (Or.inr hsub')
                · intro k hk
                  exact hUuid k (List.mem_cons_of_mem _ hk)
                · exact uniqueB_tail hUniq
            | some p =>
              rcases p with ⟨store', r⟩
              have hstore' : store' = store ++ [⟨j.uuid, j.index, r.output⟩] :=
                execJob_store hexec
              cases hdir : applyDirectives j r rest with
              | none =>
                simp only [hexec, hdir] at hmem hFresh
                rcases List.mem_cons.mp hmem with heq | hmem'
                · injection heq with h1 h2 h3
                  rw [h3]
                  exact resolveStart_here A B j rest store done stopU hedge hneq
                    hGood hUuid hUniq hstop h1 h2
                · rcases List.mem_cons.mp hmem' with heq2 | hmem''
                  · exact Event.noConfusion heq2
                  · rcases List.mem_cons.mp hmem'' with heq3 | hmem3
                    · exact Event.noConfusion heq3
                    · exact absurd hmem3 (List.not_mem_nil _)
              | some sched' =>
                simp only [hexec, hdir] at hmem hFresh
                rcases List.mem_cons.mp hmem with heq | hmem'
                · injection heq with h1 h2 h3
                  rw [h3]
                  exact resolveStart_here A B j rest store done stopU hedge hneq
                    hGood hUuid hUniq hstop h1 h2
                · rcases List.mem_cons.mp hmem' with heq2 | hmem''
                  · exact Event.noConfusion heq2
                  · rcases List.mem_cons.mp hmem'' with heq3 | hmem3
                    · exact Event.noConfusion heq3
                    · have hspec := applyDirectives_spec j r rest sched' hdir
                      have hFreshHead : ∀ k ∈ responseWorkJobs r, k.uuid ≠ B.uuid :=
                        hFresh ((j.uuid, j.index), r) (List.mem_cons_self _ _)
                      have hFreshTail := fun e he k hk =>
                        hFresh e (List.mem_cons_of_mem _ he) k hk
                      refine ih (Core.mk sched' store' ((j.uuid, j.index) :: done)
                        (if r.stopChildren then j.uuid :: stopU else stopU)
                        r.stopJobflow) ?_ ?_ ?_ ?_ hFreshTail snap hmem3
                      · rcases hGood with hst | hstp | hsub
                        · refine Or.inl ?_
                          rw [hstore', storePairs, List.map_append]
                          exact List.mem_append_left _ hst
                        · refine Or.inr (Or.inl ?_)
                          show A.uuid ∈ (if r.stopChildren then j.uuid :: stopU else stopU)
                          by_cases hsc : r.stopChildren = true
                          · rw [if_pos hsc]
                            exact List.mem_cons_of_mem _ hstp
                          · rw [if_neg hsc]
                            exact hstp
                        · rcases sublist_pair_cons hsub with ⟨hjA, _⟩ | hsub'
                          · refine Or.inl ?_
                            rw [← hjA, hstore', storePairs, List.map_append]
                            refine List.mem_append_right _ ?_
                            simp
                          · exact Or.inr (Or.inr (hspec.1 _ hsub'))
                      · intro q hq
                        rcases List.mem_cons.mp hq with rfl | hq
                        · rw [hstore', storePairs, List.map_append]
                          refine List.mem_append_right _ ?_
                          simp
                        · rw [hstore', storePairs, List.map_append]
                          exact List.mem_append_left _ (hDone q hq)
                      · intro k hk hkB
                        rcases hspec.2.1 k hk with hk0 | hraw | hid
                        · exact hUuid k (List.mem_cons_of_mem _ hk0) hkB
                        · exact absurd hkB (hFreshHead k hraw)
                        · refine Or.inr ?_
                          rw [hid.2]
                          rcases hUuid j (List.mem_cons_self _ _)
                            (by rw [← hid.1]; exact hkB) with hj | hlt
                          · rw [hj]
                            exact Nat.lt_succ_self _
                          · exact Nat.lt_succ_of_lt hlt
                      · show pairCountB B sched' ≤ 1
                        rw [pairCountB]
                        rw [hspec.2.2 (fun k => k.uuid == B.uuid && k.index == B.index) ?_]
                        · exact uniqueB_tail hUniq
                        · intro k hk
                          rcases hk with hraw | hid
                          · cases hbe : (k.uuid == B.uuid) with
                            | false => simp [hbe]
                            | true =>
                              exact absurd (eq_of_beq hbe)
                                (hFreshHead k hraw)
                          · cases hbe : (k.uuid == B.uuid) with
                            | false => simp [hbe]
                            | true =>
                              have hjb : j.uuid = B.uuid := by
                                rw [← hid.1]
                                exact eq_of_beq hbe
                              simp only [hbe, Bool.true_and]
                              rw [beq_eq_false_iff_ne, hid.2]
                              rcases hUuid j (List.mem_cons_self _ _) hjb with hj | hlt
                              · rw [hj]
                                omega
                              · omega

theorem countP_uuid_eq_count (u : Nat) : ∀ l : List Job,
    l.countP (fun k => k.uuid == u) = (l.map Job.uuid).count u := by
  intro l
  induction l with
  | nil => rfl
  | cons j rest ih =>
    rw [List.countP_cons, List.map_cons, List.count_cons, ih]

/-- C2: for every Flow the Manager schedules, any dependency edge
`A → B` (B's arguments reference A's uuid) is honoured: whenever B's
input resolution begins, A's output document `(A.uuid, A.index)` is
already among the store's documents — so in the executed order A ran,
and its output was written, before B's resolution began.  This holds for
the whole run, including work spawned by replace/detour/addition,
provided dynamically spawned jobs carry fresh uuids. -/
theorem claim_c2_topological (f : Flow) (sched : List Job) (store : JobStore)
    (fuel : Nat) (A B : Job)
    (hsched : scheduleOfFlow f = some sched)
    (hnd : (f.jobs.map Job.uuid).Nodup)
    (hA : A ∈ f.jobs) (hB : B ∈ f.jobs)
    (hedge : A.uuid ∈ refUuidsL B.args) (hneq : A.uuid ≠ B.uuid)
    (hfresh : ∀ e ∈ (runLoop fuel (initCore sched store)).2.1,
      ∀ k ∈ responseWorkJobs e.2, k.uuid ≠ B.uuid) :
    ∀ snap, Event.resolveStart B.uuid B.index snap ∈
        (runLoop fuel (initCore sched store)).2.2 →
      (A.uuid, A.index) ∈ snap := by
  have hspec := scheduleOfFlow_spec f sched hsched
  have hmemA : A ∈ sched := hspec.1.mem_iff.mpr hA
  have hmemB : B ∈ sched := hspec.1.mem_iff.mpr hB
  apply runLoop_c2 A B hedge hneq fuel (initCore sched store) ?_ ?_ ?_ ?_ hfresh
  · -- GoodAB: A precedes B in the initial schedule
    refine Or.inr (Or.inr ?_)
    rcases List.append_of_mem hmemB with ⟨t₁, t₂, hsplit⟩
    have hmemA' : A ∈ t₁ := by
      rw [hsplit] at hmemA
      rcases List.mem_append.mp hmemA with h1 | h2
      · exact h1
      · rcases List.mem_cons.mp h2 with rfl | h3
        · exact absurd rfl hneq
        · exact absurd hedge (hspec.2 t₁ B t₂ hsplit A h3)
    rcases List.append_of_mem hmemA' with ⟨p, q, hsplit2⟩
    rw [hsplit, hsplit2, List.append_assoc]
    refine List.Sublist.trans ?_ (List.sublist_append_right p _)
    refine List.Sublist.cons₂ A ?_
    refine List.Sublist.trans ?_ (List.sublist_append_right q _)
    exact List.Sublist.cons₂ B (List.nil_sublist t₂)
  · intro q hq
    exact absurd hq (List.not_mem_nil q)
  · intro k hk hkB
    refine Or.inl ?_
    exact List.inj_on_of_nodup_map hnd (hspec.1.mem_iff.mp hk) hB hkB
  · show pairCountB B sched ≤ 1
    rw [pairCountB, hspec.1.countP_eq]
    calc f.jobs.countP (fun k => k.uuid == B.uuid && k.index == B.index)
        ≤ f.jobs.countP (fun k => k.uuid == B.uuid) :=
          List.countP_mono_left (fun k _ hp => (Bool.and_eq_true_iff.mp hp).1)
      _ = (f.jobs.map Job.uuid).count B.uuid := countP_uuid_eq_count B.uuid f.jobs
      _ ≤ 1 := List.nodup_iff_count_le_one.mp hnd B.uuid

/-- C2 witness: in the two-job example flow, job 11's resolution starts
only after job 10's document is in the store. -/
theorem claim_c2_witness :
    (Job.uuid exJob1, Job.index exJob1) ∈
      storePairs [⟨10, 1, Value.int 3⟩] :=
  claim_c2_topological exFlow [exJob1, exJob2] [] 3 exJob1 exJob2 rfl
    (by decide)
    (List.mem_cons_of_mem _ (List.mem_cons_self _ _))
    (List.mem_cons_self _ _)
    (by decide) (by decide)
    (by
      intro e he k hk
      have hE : (runLoop 3 (initCore [exJob1, exJob2] [])).2.1 =
          [((10, 1), Response.mk (Value.int 3) Option.none Option.none Option.none
              Option.none false false),
           ((11, 1), Response.mk (Value.int 6) Option.none Option.none Option.none
              Option.none false false)] := rfl
      rw [hE] at he
      rcases List.mem_cons.mp he with rfl | he
      · exact absurd hk (List.not_mem_nil k)
      · rcases List.mem_cons.mp he with rfl | he
        · exact absurd hk (List.not_mem_nil k)
        · exact absurd he (List.not_mem_nil e))
    (storePairs [⟨10, 1, Value.int 3⟩])
    (by decide)

end Jobflow
